import Mathlib

/-!
Verification of the thresholding module (`skimage/filter/thresholding.py`).

The embedding works over exact rational arithmetic (`ℚ`) for the array
pipelines; the only irrational operation of the source, `np.sqrt`, is applied
through `Real.sqrt` inside `Prop`-valued classification definitions and inside
theorem statements.  1-D numpy arrays are `List ℚ`; 2-D images are functions
`ℕ → ℕ → ℚ` together with explicit dimensions `H W : ℕ` (values outside the
bounds are never read by the definitions below).
-/

namespace Thresholding

/-! ### 1-D array primitives (numpy counterparts) -/

/-- Running sum with accumulator: `cumsumFrom a [x₁, x₂, …] = [a+x₁, a+x₁+x₂, …]`.
`cumsumFrom 0` is `np.cumsum`. -/
def cumsumFrom (a : ℚ) : List ℚ → List ℚ
  | [] => []
  | x :: xs => (a + x) :: cumsumFrom (a + x) xs

/-- Model of `np.cumsum` on a 1-D array. -/
def cumsum (l : List ℚ) : List ℚ := cumsumFrom 0 l

/-- Model of the idiom `np.cumsum(l[::-1])[::-1]` (suffix sums) used by the
global selectors. -/
def bcumsum (l : List ℚ) : List ℚ := (cumsum l.reverse).reverse

/-- Model of `np.argmax`: index of the first occurrence of the maximum value;
`none` on an empty array (where numpy raises `ValueError`). -/
def argmax? : List ℚ → Option ℕ
  | [] => none
  | x :: xs =>
    match argmax? xs with
    | none => some 0
    | some j => if x < xs.getD j 0 then some (j + 1) else some 0

/-- Model of `np.nonzero(bools)[0][0]`: index of the first `true`; `none` when
there is none (where numpy indexing raises `IndexError`). -/
def firstTrue? : List Bool → Option ℕ
  | [] => none
  | b :: l => if b then some 0 else (firstTrue? l).map (· + 1)

/-- Model of numpy `.round()`: round half to even (banker's rounding). -/
def npround (q : ℚ) : ℤ :=
  let f := ⌊q⌋
  let frac := q - f
  if frac < 1 / 2 then f
  else if 1 / 2 < frac then f + 1
  else if f % 2 = 0 then f else f + 1

/-! ### Pointwise description of the 1-D primitives -/

theorem cumsumFrom_length (a : ℚ) (l : List ℚ) :
    (cumsumFrom a l).length = l.length := by
  induction l generalizing a with
  | nil => rfl
  | cons x xs ih => simp [cumsumFrom, ih]

theorem cumsumFrom_getElem? (a : ℚ) (l : List ℚ) (k : ℕ) :
    (cumsumFrom a l)[k]? =
      if k < l.length then some (a + (l.take (k + 1)).sum) else none := by
  induction l generalizing a k with
  | nil => simp [cumsumFrom]
  | cons x xs ih =>
    cases k with
    | zero => simp [cumsumFrom]
    | succ k => simp [cumsumFrom, ih, Nat.succ_lt_succ_iff, add_assoc]

theorem cumsum_length (l : List ℚ) : (cumsum l).length = l.length :=
  cumsumFrom_length 0 l

theorem cumsum_getElem? (l : List ℚ) (k : ℕ) :
    (cumsum l)[k]? = if k < l.length then some ((l.take (k + 1)).sum) else none := by
  simpa using cumsumFrom_getElem? 0 l k

theorem bcumsum_length (l : List ℚ) : (bcumsum l).length = l.length := by
  simp [bcumsum, cumsum_length]

theorem bcumsum_getElem? (l : List ℚ) (k : ℕ) :
    (bcumsum l)[k]? = if k < l.length then some ((l.drop k).sum) else none := by
  by_cases hk : k < l.length
  · have hlen : (cumsum l.reverse).length = l.length := by simp [cumsum_length]
    rw [bcumsum, List.getElem?_reverse (by simpa [hlen] using hk), hlen,
      cumsum_getElem?, if_pos hk, if_pos (by simp; omega)]
    have h1 : l.length - 1 - k + 1 = l.length - k := by omega
    rw [h1, List.take_reverse, show l.length - (l.length - k) = k by omega,
      List.sum_reverse]
  · rw [if_neg hk]
    exact List.getElem?_eq_none (by rw [bcumsum_length]; omega)

theorem argmax?_eq_none_iff (l : List ℚ) : argmax? l = none ↔ l = [] := by
  cases l with
  | nil => simp [argmax?]
  | cons x xs =>
    rw [argmax?]
    cases argmax? xs with
    | none => simp
    | some j =>
      constructor
      · intro h
        replace h : (if x < xs.getD j 0 then some (j + 1) else some 0) = none := h
        split at h <;> exact absurd h (by simp)
      · intro h
        exact absurd h (by simp)

theorem argmax?_spec (l : List ℚ) (k : ℕ) (h : argmax? l = some k) :
    k < l.length ∧ (∀ i < l.length, l.getD i 0 ≤ l.getD k 0) ∧
      (∀ i < k, l.getD i 0 < l.getD k 0) := by
  induction l generalizing k with
  | nil => simp [argmax?] at h
  | cons x xs ih =>
    rw [argmax?] at h
    cases hxs : argmax? xs with
    | none =>
      rw [hxs] at h
      replace h : some 0 = some k := h
      have hx : xs = [] := (argmax?_eq_none_iff xs).mp hxs
      injection h with h
      subst hx
      subst h
      refine ⟨by simp, fun i hi => ?_, fun i hi => absurd hi (by omega)⟩
      have hi0 : i = 0 := by simpa using hi
      simp [hi0]
    | some j =>
      rw [hxs] at h
      replace h : (if x < xs.getD j 0 then some (j + 1) else some 0) = some k := h
      obtain ⟨hj, hmax, hfirst⟩ := ih j hxs
      by_cases hlt : x < xs.getD j 0
      · rw [if_pos hlt] at h
        injection h with h
        subst h
        refine ⟨by simpa using Nat.succ_lt_succ hj, fun i hi => ?_, fun i hi => ?_⟩
        · cases i with
          | zero => simpa using le_of_lt hlt
          | succ i =>
            simp only [List.getD_cons_succ]
            exact hmax i (by simpa using hi)
        · cases i with
          | zero => simpa using hlt
          | succ i =>
            simp only [List.getD_cons_succ]
            exact hfirst i (by omega)
      · rw [if_neg hlt] at h
        injection h with h
        subst h
        refine ⟨by simp, fun i hi => ?_, by omega⟩
        cases i with
        | zero => simp
        | succ i =>
          simp only [List.getD_cons_zero, List.getD_cons_succ]
          exact le_trans (hmax i (by simpa using hi)) (not_lt.mp hlt)

theorem argmax?_isSome (l : List ℚ) (hne : l ≠ []) : ∃ k, argmax? l = some k := by
  cases hl : argmax? l with
  | none => exact absurd ((argmax?_eq_none_iff l).mp hl) hne
  | some k => exact ⟨k, rfl⟩

theorem firstTrue?_spec (l : List Bool) (k : ℕ) (h : firstTrue? l = some k) :
    k < l.length ∧ l.getD k false = true ∧ ∀ j < k, l.getD j false = false := by
  induction l generalizing k with
  | nil => simp [firstTrue?] at h
  | cons b bs ih =>
    rw [firstTrue?] at h
    by_cases hb : b = true
    · rw [if_pos hb] at h
      injection h with h
      subst h
      exact ⟨by simp, by simpa using hb, fun j hj => absurd hj (by omega)⟩
    · have hb' : b = false := by simpa using hb
      rw [hb', if_neg (by simp)] at h
      rw [Option.map_eq_some'] at h
      obtain ⟨k', hk', rfl⟩ := h
      obtain ⟨h1, h2, h3⟩ := ih k' hk'
      refine ⟨by simpa using Nat.succ_lt_succ h1, by simpa using h2, fun j hj => ?_⟩
      cases j with
      | zero => simp [hb']
      | succ j =>
        simp only [List.getD_cons_succ]
        exact h3 j (by omega)

theorem firstTrue?_isSome (l : List Bool) (k : ℕ) (hk : k < l.length)
    (ht : l.getD k false = true) : ∃ j, firstTrue? l = some j := by
  induction l generalizing k with
  | nil => simp at hk
  | cons b bs ih =>
    by_cases hb : b = true
    · exact ⟨0, by rw [firstTrue?, if_pos hb]⟩
    · have hb' : b = false := by simpa using hb
      cases k with
      | zero => simp [hb'] at ht
      | succ k =>
        obtain ⟨j, hj⟩ := ih k (by simpa using hk) (by simpa using ht)
        exact ⟨j + 1, by rw [firstTrue?, hb', if_neg (by simp), hj]; rfl⟩

/-! ### Global selectors (source lines 97-261) -/

/-- Between-class variance array of `threshold_otsu` (lines 128-138):
`weight1 = np.cumsum(hist)`, `weight2 = np.cumsum(hist[::-1])[::-1]`,
`mean1 = np.cumsum(hist*bin_centers) / weight1`,
`mean2 = (np.cumsum((hist*bin_centers)[::-1]) / weight2[::-1])[::-1]`,
`variance12 = weight1[:-1] * weight2[1:] * (mean1[:-1] - mean2[1:])**2`. -/
def otsuVariance12 (hist bin_centers : List ℚ) : List ℚ :=
  let weight1 := cumsum hist
  let weight2 := bcumsum hist
  let hc := List.zipWith (· * ·) hist bin_centers
  let mean1 := List.zipWith (· / ·) (cumsum hc) weight1
  let mean2 := (List.zipWith (· / ·) (cumsum hc.reverse) weight2.reverse).reverse
  let diff := List.zipWith (· - ·) mean1.dropLast mean2.tail
  List.zipWith (· * ·) (List.zipWith (· * ·) weight1.dropLast weight2.tail)
    (diff.map fun d => d ^ 2)

/-- Model of `threshold_otsu` (lines 125-142), taking the histogram produced
by the external provider as input; it returns
`bin_centers[:-1][np.argmax(variance12)]`.  There is no single-bin shortcut in
the source: on a one-bin histogram `variance12` is empty and `np.argmax`
raises, which is modelled by `none`. -/
def threshold_otsu (hist bin_centers : List ℚ) : Option ℚ :=
  (argmax? (otsuVariance12 hist bin_centers)).bind fun idx => bin_centers.dropLast[idx]?

/-- Model of `threshold_yen` (lines 180-196).  The source returns
`bin_centers[0]` immediately when the histogram has a single bin.  Otherwise it
computes `crit = np.log(((P1_sq[:-1] * P2_sq[1:]) ** -1) * (P1[:-1] * (1.0 -
P1[:-1])) ** 2)` and returns `bin_centers[crit.argmax()]`.  Since `np.log` is
strictly monotone on positives, `crit.argmax()` (first maximiser) coincides
with the argmax of the operand of the logarithm, so the model drops the
logarithm and stays in `ℚ`. -/
def threshold_yen (hist bin_centers : List ℚ) : Option ℚ :=
  if bin_centers.length = 1 then bin_centers[0]?
  else
    let pmf := hist.map (· / hist.sum)
    let P1 := cumsum pmf
    let P1_sq := cumsum (pmf.map fun x => x ^ 2)
    let P2_sq := bcumsum (pmf.map fun x => x ^ 2)
    let inv_sq := List.zipWith (fun x y => (x * y)⁻¹) P1_sq.dropLast P2_sq.tail
    let crit := List.zipWith (fun c p => c * (p * (1 - p)) ^ 2) inv_sq P1.dropLast
    (argmax? crit).bind fun idx => bin_centers[idx]?

/-- Ordinal array of `threshold_isodata` (line 249):
`binnums = np.arange(pmf.size, dtype=np.uint8)`.  The `uint8` dtype makes the
ordinal at position `i` equal to `i mod 256`. -/
def binnums (n : ℕ) : List ℚ := (List.range n).map fun i => ((i % 256 : ℕ) : ℚ)

/-- Match array of `threshold_isodata` (lines 245-258), parameterised by the
ordinal array `bn` so that the `uint8` behaviour can be compared with true bin
indices.  Pipeline of the source: `cpmfl = np.cumsum(pmf)`,
`cpmfh = np.cumsum(pmf[::-1])[::-1]`,
`l = np.ma.divide(np.cumsum(pmf * binnums), cpmfl)`,
`h = np.ma.divide(np.cumsum((pmf[::-1] * binnums[::-1]))[::-1], cpmfh)`,
`allmean = (l + h) / 2`, and the boolean array `allmean.round() == binnums`.
The masked division `np.ma.divide` is modelled by total rational division; the
two coincide whenever no cumulative count is zero, which holds for provider
histograms (first and last counts positive, all counts non-negative). -/
def isodataHits (bn : List ℚ) (hist : List ℚ) : List Bool :=
  let pmf := hist
  let cpmfl := cumsum pmf
  let cpmfh := bcumsum pmf
  let pb := List.zipWith (· * ·) pmf bn
  let l := List.zipWith (· / ·) (cumsum pb) cpmfl
  let h := List.zipWith (· / ·) (bcumsum pb) cpmfh
  let allmean := List.zipWith (fun a b => (a + b) / 2) l h
  List.zipWith (fun a b => decide ((npround a : ℚ) = b)) allmean bn

/-- Core of `threshold_isodata` (lines 241-261) with ordinal array `bn`:
the single-bin shortcut, then
`bin_centers[np.nonzero(allmean.round() == binnums)[0][0]]` (an absent match
makes the indexing raise, modelled as `none`). -/
def isodataWith (bn : List ℚ) (hist bin_centers : List ℚ) : Option ℚ :=
  if bin_centers.length = 1 then bin_centers[0]?
  else (firstTrue? (isodataHits bn hist)).bind fun idx => bin_centers[idx]?

/-- Model of `threshold_isodata` (lines 199-261): the source instantiates the
ordinals with `np.arange(pmf.size, dtype=np.uint8)`, i.e. `binnums`. -/
def threshold_isodata (hist bin_centers : List ℚ) : Option ℚ :=
  isodataWith (binnums hist.length) hist bin_centers

/-- Variant of the ISODATA search where ordinals are the true bin indices,
as the specification words describe them ("index i is the bin ordinal").
Used to contrast with the `uint8` wrap of the source. -/
def isodataTrueIdx (hist bin_centers : List ℚ) : Option ℚ :=
  isodataWith ((List.range hist.length).map fun i : ℕ => (i : ℚ)) hist bin_centers

/-! ### Claim C1 -/

/-- C1 counterexample: on the single-bin histogram `hist = [2]`,
`bin_centers = [5]`, `threshold_otsu` does not return the sole bin center `5`:
its between-class variance array is empty, so `np.argmax` raises
(modelled as `none`).  This falsifies the claim that all three global
selectors return `v` on a one-bin histogram. -/
theorem C1_otsu_single_bin_fails :
    threshold_otsu [2] [5] = none ∧ threshold_otsu [2] [5] ≠ some 5 := by
  with_unfolding_all decide

/-- C1 amended: on a histogram with exactly one bin of center `v`,
`threshold_yen` and `threshold_isodata` return `v` (both short-circuit on
`bin_centers.size == 1`), but `threshold_otsu` — which has no such shortcut —
fails (argmax of the empty variance array, modelled as `none`). -/
theorem C1_single_bin_selectors (c v : ℚ) :
    threshold_yen [c] [v] = some v ∧ threshold_isodata [c] [v] = some v ∧
      threshold_otsu [c] [v] = none := by
  refine ⟨?_, ?_, ?_⟩
  · simp [threshold_yen]
  · simp [threshold_isodata, isodataWith]
  · simp [threshold_otsu, cumsum, cumsumFrom, bcumsum, argmax?]

/-! ### Claim C6: Otsu returns the first argmax of the between-class variance -/

namespace OtsuSplit

/-- Forward cumulative weight of claim C6: `weight1[k] = Σ over i ≤ k of counts[i]`. -/
def w1 (hist : List ℚ) (k : ℕ) : ℚ := (hist.take (k + 1)).sum

/-- Backward cumulative weight of claim C6: `weight2[k] = Σ over i ≥ k of counts[i]`. -/
def w2 (hist : List ℚ) (k : ℕ) : ℚ := (hist.drop k).sum

/-- Forward cumulative mean of claim C6. -/
def m1 (hist centers : List ℚ) (k : ℕ) : ℚ :=
  ((List.zipWith (· * ·) hist centers).take (k + 1)).sum / w1 hist k

/-- Backward cumulative mean of claim C6. -/
def m2 (hist centers : List ℚ) (k : ℕ) : ℚ :=
  ((List.zipWith (· * ·) hist centers).drop k).sum / w2 hist k

/-- Between-class variance at split `k` as the claim words it:
`weight1[k] * weight2[k+1] * (mean1[k] - mean2[k+1])^2`. -/
def betweenVar (hist centers : List ℚ) (k : ℕ) : ℚ :=
  w1 hist k * w2 hist (k + 1) * (m1 hist centers k - m2 hist centers (k + 1)) ^ 2

end OtsuSplit

theorem otsuMean2_reverse (hist centers : List ℚ)
    (hlen : hist.length = centers.length) :
    (List.zipWith (· / ·) (cumsum (List.zipWith (· * ·) hist centers).reverse)
        (bcumsum hist).reverse).reverse =
      List.zipWith (· / ·) (bcumsum (List.zipWith (· * ·) hist centers))
        (bcumsum hist) := by
  rw [List.reverse_zipWith (by simp [cumsum_length, bcumsum_length, hlen])]
  simp only [List.reverse_reverse]
  rfl

theorem otsuVariance12_length (hist centers : List ℚ)
    (hlen : hist.length = centers.length) :
    (otsuVariance12 hist centers).length = hist.length - 1 := by
  simp only [otsuVariance12, otsuMean2_reverse hist centers hlen,
    List.length_zipWith, List.length_map, List.length_dropLast, List.length_tail,
    cumsum_length, bcumsum_length, List.length_reverse]
  omega

theorem otsuVariance12_getElem? (hist centers : List ℚ)
    (hlen : hist.length = centers.length) (k : ℕ) :
    (otsuVariance12 hist centers)[k]? =
      if k < hist.length - 1 then some (OtsuSplit.betweenVar hist centers k)
      else none := by
  have hhc : (List.zipWith (· * ·) hist centers).length = hist.length := by
    simp [hlen]
  have hmean2 := otsuMean2_reverse hist centers hlen
  by_cases hk : k < hist.length - 1
  · have c1 : ((cumsum hist).dropLast)[k]? = some ((hist.take (k + 1)).sum) := by
      rw [List.getElem?_dropLast, cumsum_length, if_pos hk, cumsum_getElem?,
        if_pos (by omega)]
    have c2 : ((bcumsum hist).tail)[k]? = some ((hist.drop (k + 1)).sum) := by
      rw [List.getElem?_tail, bcumsum_getElem?, if_pos (by omega)]
    have c3 : ((List.zipWith (· / ·)
        (cumsum (List.zipWith (· * ·) hist centers)) (cumsum hist)).dropLast)[k]? =
        some (((List.zipWith (· * ·) hist centers).take (k + 1)).sum /
          (hist.take (k + 1)).sum) := by
      rw [List.getElem?_dropLast,
        if_pos (by simp only [List.length_zipWith, cumsum_length, hhc]; omega),
        List.getElem?_zipWith', cumsum_getElem?, cumsum_getElem?, hhc,
        if_pos (by omega), if_pos (by omega)]
      rfl
    have c4 : ((List.zipWith (· / ·)
        (bcumsum (List.zipWith (· * ·) hist centers)) (bcumsum hist)).tail)[k]? =
        some (((List.zipWith (· * ·) hist centers).drop (k + 1)).sum /
          (hist.drop (k + 1)).sum) := by
      rw [List.getElem?_tail, List.getElem?_zipWith', bcumsum_getElem?,
        bcumsum_getElem?, hhc, if_pos (by omega), if_pos (by omega)]
      rfl
    rw [if_pos hk]
    simp only [otsuVariance12, hmean2, List.getElem?_zipWith', List.getElem?_map,
      c1, c2, c3, c4, Option.map_some', Option.some_bind]
    simp [OtsuSplit.betweenVar, OtsuSplit.w1, OtsuSplit.w2, OtsuSplit.m1,
      OtsuSplit.m2]
  · rw [if_neg hk]
    exact List.getElem?_eq_none
      (by rw [otsuVariance12_length hist centers hlen]; omega)

theorem sum_take_pos (l : List ℚ) (hh : 0 < l.headI) (hnn : ∀ x ∈ l, 0 ≤ x)
    (k : ℕ) : 0 < (l.take (k + 1)).sum := by
  cases l with
  | nil => simp [show (default : ℚ) = 0 from rfl] at hh
  | cons x xs =>
    rw [List.take_succ_cons, List.sum_cons]
    have hx : (0 : ℚ) < x := by simpa using hh
    have hnx : 0 ≤ (xs.take k).sum :=
      List.sum_nonneg fun y hy =>
        hnn y (List.mem_cons_of_mem _ (List.take_subset _ _ hy))
    linarith

theorem sum_drop_pos (l : List ℚ) (hh : 0 < l.reverse.headI)
    (hnn : ∀ x ∈ l, 0 ≤ x) (k : ℕ) (hk : k < l.length) : 0 < (l.drop k).sum := by
  rw [← List.sum_reverse (l.drop k), List.reverse_drop,
    show l.length - k = l.length - k - 1 + 1 by omega]
  exact sum_take_pos l.reverse hh (fun x hx => hnn x (List.mem_reverse.mp hx)) _

/-- C6: for every histogram with at least two bins (first and last counts
positive, all counts non-negative, as the external histogram provider
guarantees — `hist.reverse.headI` is the last bin count), `threshold_otsu`
returns the bin center at the index `k` maximising
`weight1[k] * weight2[k+1] * (mean1[k] - mean2[k+1])^2` over `k < nbins - 1`,
ties broken by the lowest index; moreover every cumulative weight entering the
formula is positive (no division by zero). -/
theorem C6_otsu_first_argmax (hist centers : List ℚ)
    (hlen : hist.length = centers.length) (h2 : 2 ≤ hist.length)
    (hhead : 0 < hist.headI) (hlast : 0 < hist.reverse.headI)
    (hnn : ∀ x ∈ hist, 0 ≤ x) :
    ∃ k, k < hist.length - 1 ∧
      threshold_otsu hist centers = centers[k]? ∧
      (∀ i < hist.length - 1,
        OtsuSplit.betweenVar hist centers i ≤ OtsuSplit.betweenVar hist centers k) ∧
      (∀ i < k,
        OtsuSplit.betweenVar hist centers i < OtsuSplit.betweenVar hist centers k) ∧
      (∀ i < hist.length, 0 < OtsuSplit.w1 hist i ∧ 0 < OtsuSplit.w2 hist i) := by
  have hV := otsuVariance12_getElem? hist centers hlen
  have hVlen : (otsuVariance12 hist centers).length = hist.length - 1 :=
    otsuVariance12_length hist centers hlen
  have hne : otsuVariance12 hist centers ≠ [] := by
    intro h
    rw [h] at hVlen
    simp only [List.length_nil] at hVlen
    omega
  obtain ⟨k, hk⟩ := argmax?_isSome _ hne
  obtain ⟨hklen, hmax, hfirst⟩ := argmax?_spec _ k hk
  rw [hVlen] at hklen
  have hVd : ∀ i, i < hist.length - 1 →
      (otsuVariance12 hist centers).getD i 0 =
        OtsuSplit.betweenVar hist centers i := by
    intro i hi
    rw [List.getD_eq_getElem?_getD, hV i, if_pos hi]
    rfl
  refine ⟨k, hklen, ?_, ?_, ?_, ?_⟩
  · rw [threshold_otsu, hk, Option.some_bind, List.getElem?_dropLast,
      if_pos (by omega)]
  · intro i hi
    rw [← hVd i hi, ← hVd k hklen]
    exact hmax i (by omega)
  · intro i hi
    rw [← hVd i (by omega), ← hVd k hklen]
    exact hfirst i hi
  · intro i hi
    exact ⟨sum_take_pos hist hhead hnn i, sum_drop_pos hist hlast hnn i hi⟩

/-- Witness for C6 at `hist = [1, 2]`, `bin_centers = [0, 1]`. -/
theorem C6_otsu_first_argmax_witness :
    (([1, 2] : List ℚ).length = ([0, 1] : List ℚ).length ∧
      2 ≤ ([1, 2] : List ℚ).length ∧ 0 < ([1, 2] : List ℚ).headI ∧
      0 < ([1, 2] : List ℚ).reverse.headI ∧ ∀ x ∈ ([1, 2] : List ℚ), 0 ≤ x) ∧
    ∃ k, k < ([1, 2] : List ℚ).length - 1 ∧
      threshold_otsu [1, 2] [0, 1] = ([0, 1] : List ℚ)[k]? ∧
      (∀ i < ([1, 2] : List ℚ).length - 1,
        OtsuSplit.betweenVar [1, 2] [0, 1] i ≤
          OtsuSplit.betweenVar [1, 2] [0, 1] k) ∧
      (∀ i < k, OtsuSplit.betweenVar [1, 2] [0, 1] i <
        OtsuSplit.betweenVar [1, 2] [0, 1] k) ∧
      (∀ i < ([1, 2] : List ℚ).length,
        0 < OtsuSplit.w1 [1, 2] i ∧ 0 < OtsuSplit.w2 [1, 2] i) :=
  ⟨⟨rfl, by decide, by with_unfolding_all decide, by with_unfolding_all decide,
      by with_unfolding_all decide⟩,
    C6_otsu_first_argmax [1, 2] [0, 1] rfl (by decide)
      (by with_unfolding_all decide) (by with_unfolding_all decide)
      (by with_unfolding_all decide)⟩

/-! ### Claims C7 and C10: the ISODATA first-match scan and the uint8 wrap -/

namespace IsodataScan

/-- Forward cumulative count-weighted average bin index of claim C7:
`l[k] = (Σ over i ≤ k of counts[i]*i) / (Σ over i ≤ k of counts[i])`, with `i`
the true bin ordinal. -/
def lval (hist : List ℚ) (k : ℕ) : ℚ :=
  ((List.zipWith (· * ·) hist
      ((List.range hist.length).map fun i : ℕ => (i : ℚ))).take (k + 1)).sum /
    (hist.take (k + 1)).sum

/-- Backward cumulative count-weighted average bin index of claim C7:
`h[k] = (Σ over i ≥ k of counts[i]*i) / (Σ over i ≥ k of counts[i])`. -/
def hval (hist : List ℚ) (k : ℕ) : ℚ :=
  ((List.zipWith (· * ·) hist
      ((List.range hist.length).map fun i : ℕ => (i : ℚ))).drop k).sum /
    (hist.drop k).sum

/-- Matching test of claim C7 at bin index `k`: `round((l[k]+h[k])/2) == k`. -/
def matchAt (hist : List ℚ) (k : ℕ) : Prop :=
  npround ((lval hist k + hval hist k) / 2) = (k : ℤ)

instance (hist : List ℚ) (k : ℕ) : Decidable (matchAt hist k) :=
  inferInstanceAs
    (Decidable (npround ((lval hist k + hval hist k) / 2) = (k : ℤ)))

end IsodataScan

theorem binnums_eq_of_le (n : ℕ) (hn : n ≤ 256) :
    binnums n = (List.range n).map fun i : ℕ => (i : ℚ) := by
  unfold binnums
  exact List.map_congr_left fun i hi => by
    rw [Nat.mod_eq_of_lt (lt_of_lt_of_le (List.mem_range.mp hi) hn)]

theorem isodataHits_getElem? (hist : List ℚ) (k : ℕ) :
    (isodataHits ((List.range hist.length).map fun i : ℕ => (i : ℚ)) hist)[k]? =
      if k < hist.length then some (decide (IsodataScan.matchAt hist k))
      else none := by
  set idx := (List.range hist.length).map fun i : ℕ => (i : ℚ) with hidx
  have hidxlen : idx.length = hist.length := by simp [hidx]
  have hpblen : (List.zipWith (· * ·) hist idx).length = hist.length := by
    simp [hidxlen]
  by_cases hk : k < hist.length
  · have hl : (List.zipWith (· / ·) (cumsum (List.zipWith (· * ·) hist idx))
        (cumsum hist))[k]? = some (IsodataScan.lval hist k) := by
      rw [List.getElem?_zipWith', cumsum_getElem?, cumsum_getElem?, hpblen,
        if_pos hk, if_pos hk]
      rfl
    have hh : (List.zipWith (· / ·) (bcumsum (List.zipWith (· * ·) hist idx))
        (bcumsum hist))[k]? = some (IsodataScan.hval hist k) := by
      rw [List.getElem?_zipWith', bcumsum_getElem?, bcumsum_getElem?, hpblen,
        if_pos hk, if_pos hk]
      rfl
    have hidxk : idx[k]? = some ((k : ℕ) : ℚ) := by
      rw [hidx, List.getElem?_map, List.getElem?_range hk]
      rfl
    rw [if_pos hk]
    simp only [isodataHits, List.getElem?_zipWith', hl, hh, hidxk,
      Option.map_some', Option.some_bind]
    congr 1
    rw [decide_eq_decide]
    unfold IsodataScan.matchAt
    constructor
    · intro hq
      exact_mod_cast hq
    · intro hz
      exact_mod_cast hz
  · rw [if_neg hk]
    refine List.getElem?_eq_none ?_
    simp only [isodataHits, List.length_zipWith, cumsum_length, bcumsum_length,
      hpblen, hidxlen]
    omega

/-- C7 amended: for every histogram with at least two and at most 256 bins
(first and last counts positive, all counts non-negative, and some bin index
matching, as the provider and the algorithm's contract guarantee),
`threshold_isodata` returns the bin center of the first index `k` with
`round((l[k]+h[k])/2) == k`, the earlier indices all failing the test; and all
cumulative counts dividing `l`, `h` are positive.  The bound of 256 bins is
forced by the `uint8` ordinals of the source (see the counterexample and claim
C10). -/
theorem C7_isodata_first_match (hist centers : List ℚ)
    (hlen : hist.length = centers.length) (h2 : 2 ≤ hist.length)
    (h256 : hist.length ≤ 256)
    (hhead : 0 < hist.headI) (hlast : 0 < hist.reverse.headI)
    (hnn : ∀ x ∈ hist, 0 ≤ x)
    (hex : ∃ k, k < hist.length ∧ IsodataScan.matchAt hist k) :
    ∃ k, k < hist.length ∧ threshold_isodata hist centers = centers[k]? ∧
      IsodataScan.matchAt hist k ∧ (∀ j < k, ¬ IsodataScan.matchAt hist j) ∧
      (∀ i < hist.length, 0 < (hist.take (i + 1)).sum ∧ 0 < (hist.drop i).sum) := by
  obtain ⟨k0, hk0, hm0⟩ := hex
  have hbn : binnums hist.length = (List.range hist.length).map fun i : ℕ => (i : ℚ) :=
    binnums_eq_of_le _ h256
  set hits := isodataHits ((List.range hist.length).map fun i : ℕ => (i : ℚ)) hist
    with hhits
  have hget : ∀ i, i < hist.length →
      hits.getD i false = decide (IsodataScan.matchAt hist i) := by
    intro i hi
    rw [List.getD_eq_getElem?_getD, hhits, isodataHits_getElem?, if_pos hi]
    rfl
  have hk0' : hits.getD k0 false = true := by
    rw [hget k0 hk0, decide_eq_true_eq]
    exact hm0
  have hk0len : k0 < hits.length := by
    by_contra hge
    rw [List.getD_eq_getElem?_getD, List.getElem?_eq_none (by omega)] at hk0'
    simp at hk0'
  obtain ⟨j, hj⟩ := firstTrue?_isSome hits k0 hk0len hk0'
  obtain ⟨hjlen, hjtrue, hjfirst⟩ := firstTrue?_spec hits j hj
  have hjn : j < hist.length := by
    by_contra hge
    have hnone : hits[j]? = none := by
      rw [hhits, isodataHits_getElem?, if_neg hge]
    rw [List.getElem?_eq_getElem hjlen] at hnone
    exact absurd hnone (by simp)
  refine ⟨j, hjn, ?_, ?_, ?_, ?_⟩
  · rw [threshold_isodata, hbn, isodataWith, if_neg (by omega), ← hhits, hj,
      Option.some_bind]
  · have := hget j hjn
    rw [hjtrue, eq_comm, decide_eq_true_eq] at this
    exact this
  · intro i hi
    have := hget i (by omega)
    rw [hjfirst i hi, eq_comm, decide_eq_false_iff_not] at this
    exact this
  · intro i hi
    exact ⟨sum_take_pos hist hhead hnn i, sum_drop_pos hist hlast hnn i hi⟩

/-- Witness for the amended C7 at `hist = [1, 1]`, `bin_centers = [0, 1]`
(the matching test holds at bin 0 there). -/
theorem C7_isodata_first_match_witness :
    (([1, 1] : List ℚ).length = ([0, 1] : List ℚ).length ∧
      2 ≤ ([1, 1] : List ℚ).length ∧ ([1, 1] : List ℚ).length ≤ 256 ∧
      0 < ([1, 1] : List ℚ).headI ∧ 0 < ([1, 1] : List ℚ).reverse.headI ∧
      (∀ x ∈ ([1, 1] : List ℚ), 0 ≤ x) ∧
      ∃ k, k < ([1, 1] : List ℚ).length ∧ IsodataScan.matchAt [1, 1] k) ∧
    ∃ k, k < ([1, 1] : List ℚ).length ∧
      threshold_isodata [1, 1] [0, 1] = ([0, 1] : List ℚ)[k]? ∧
      IsodataScan.matchAt [1, 1] k ∧
      (∀ j < k, ¬ IsodataScan.matchAt [1, 1] j) ∧
      (∀ i < ([1, 1] : List ℚ).length,
        0 < (([1, 1] : List ℚ).take (i + 1)).sum ∧
          0 < (([1, 1] : List ℚ).drop i).sum) :=
  ⟨⟨rfl, by decide, by decide, by with_unfolding_all decide,
      by with_unfolding_all decide, by with_unfolding_all decide,
      by with_unfolding_all decide⟩,
    C7_isodata_first_match [1, 1] [0, 1] rfl (by decide) (by decide)
      (by with_unfolding_all decide) (by with_unfolding_all decide)
      (by with_unfolding_all decide) (by with_unfolding_all decide)⟩

/-- Histogram with 257 bins: count 1 in the first and last bins, 0 elsewhere. -/
def hist257 : List ℚ := 1 :: (List.replicate 255 0 ++ [1])

/-- Strictly increasing bin centers `0, 1, …, 256` for `hist257`. -/
def centers257 : List ℚ := (List.range 257).map fun i : ℕ => (i : ℚ)

set_option maxRecDepth 100000 in
/-- C7 counterexample: on the 257-bin histogram `hist257` the first bin index
whose true-ordinal matching test holds is 128, so the claim predicts the
returned center `128`; the source (whose `uint8` ordinals wrap) returns the
center `0` instead. -/
theorem C7_isodata_counterexample :
    threshold_isodata hist257 centers257 = some 0 ∧
    IsodataScan.matchAt hist257 128 ∧
    (∀ j < 128, ¬ IsodataScan.matchAt hist257 j) ∧
    centers257[128]? = some 128 ∧ some (0 : ℚ) ≠ some (128 : ℚ) := by
  with_unfolding_all decide

set_option maxRecDepth 100000 in
/-- C10: `threshold_isodata` represents bin ordinals as `uint8`, so the
ordinal at position `i` is `i mod 256`; on the 257-bin histogram `hist257`
the wrapped ordinal at position 256 is 0 and the first-match search returns
the center 0, whereas the same search with true bin indices returns the
center 128. -/
theorem C10_isodata_uint8_wrap :
    (∀ n i : ℕ, (binnums n)[i]? =
      ((List.range n)[i]?).map fun j => ((j % 256 : ℕ) : ℚ)) ∧
    (binnums 257)[256]? = some 0 ∧ (binnums 257)[255]? = some 255 ∧
    threshold_isodata hist257 centers257 = some 0 ∧
    isodataTrueIdx hist257 centers257 = some 128 :=
  ⟨fun n i => by rw [binnums, List.getElem?_map],
    by with_unfolding_all decide, by with_unfolding_all decide,
    by with_unfolding_all decide, by with_unfolding_all decide⟩

/-! ### Local statistics engine `_mean_std` (source lines 264-314)

The source builds the integral image of the raw intensities, pads it with a
zero row and column, and convolves it with a corner kernel in `mode='nearest'`
(lines 293-306): the zero padding clamps the top/left corner reads and the
`'nearest'` extension clamps the bottom/right ones, so each pixel receives the
sum of its `w × w` window clipped to the image.  `w2` (lines 303-304) and
`sum_g2` (line 310) convolve in `mode='constant'`, summing the same clipped
rectangle.  The embedding realises the padded table as the exclusive 2-D
prefix sum and the convolution results as the four-corner lookups with clamped
indices. -/

/-- Exclusive 2-D prefix sum: entry `(i, j)` of the zero-padded integral image
(lines 293-297). -/
def sat (g : ℕ → ℕ → ℚ) (i j : ℕ) : ℚ :=
  ∑ a ∈ Finset.range i, ∑ b ∈ Finset.range j, g a b

/-- Window radius of a `w × w` window centered on a pixel. -/
def wr (w : ℕ) : ℕ := (w - 1) / 2

/-- Four-corner lookup into the padded integral image (lines 299-306), with
truncated `ℕ` subtraction realising the zero padding on the top/left and
`min _ H`, `min _ W` realising the `'nearest'` clamp on the bottom/right. -/
def windowSum (g : ℕ → ℕ → ℚ) (H W w i j : ℕ) : ℚ :=
  sat g (min (i + wr w + 1) H) (min (j + wr w + 1) W)
    - sat g (i - wr w) (min (j + wr w + 1) W)
    - sat g (min (i + wr w + 1) H) (j - wr w)
    + sat g (i - wr w) (j - wr w)

/-- Pixel count `w2` of the clipped window (lines 302-304): convolution of an
all-ones image with the `w × w` ones kernel in `mode='constant'`. -/
def w2count (H W w i j : ℕ) : ℚ := windowSum (fun _ _ => 1) H W w i j

/-- Local mean `m` (line 306). -/
def mstd_m (g : ℕ → ℕ → ℚ) (H W w i j : ℕ) : ℚ :=
  windowSum g H W w i j / w2count H W w i j

/-- Windowed sum of squares `sum_g2` (lines 308, 310). -/
def sum_g2 (g : ℕ → ℕ → ℚ) (H W w i j : ℕ) : ℚ :=
  windowSum (fun a b => g a b ^ 2) H W w i j

/-- Local variance `s2 = (sum_g2 - w2 * m^2) / w2` (lines 309-312).  The
source then takes `s = np.sqrt(s2)` (line 313) with no clamping of `s2`. -/
def mstd_s2 (g : ℕ → ℕ → ℚ) (H W w i j : ℕ) : ℚ :=
  (sum_g2 g H W w i j - w2count H W w i j * mstd_m g H W w i j ^ 2) /
    w2count H W w i j

theorem windowSum_eq_sum (g : ℕ → ℕ → ℚ) (H W w i j : ℕ)
    (hi : i < H) (hj : j < W) :
    windowSum g H W w i j =
      ∑ a ∈ Finset.Ico (i - wr w) (min (i + wr w + 1) H),
        ∑ b ∈ Finset.Ico (j - wr w) (min (j + wr w + 1) W), g a b := by
  have hr : i - wr w ≤ min (i + wr w + 1) H := by omega
  have hc : j - wr w ≤ min (j + wr w + 1) W := by omega
  rw [Finset.sum_congr rfl fun a _ => Finset.sum_Ico_eq_sub _ hc,
    Finset.sum_sub_distrib, Finset.sum_Ico_eq_sub _ hr,
    Finset.sum_Ico_eq_sub _ hr]
  unfold windowSum sat
  ring

theorem w2count_pos (H W w i j : ℕ) (hi : i < H) (hj : j < W) :
    0 < w2count H W w i j := by
  rw [w2count, windowSum_eq_sum _ H W w i j hi hj]
  simp only [Finset.sum_const, Nat.card_Ico, nsmul_eq_mul, mul_one]
  have h1 : i - wr w < min (i + wr w + 1) H := by omega
  have h2 : j - wr w < min (j + wr w + 1) W := by omega
  have c1 : (0 : ℚ) < (min (i + wr w + 1) H - (i - wr w) : ℕ) := by
    exact_mod_cast Nat.sub_pos_of_lt h1
  have c2 : (0 : ℚ) < (min (j + wr w + 1) W - (j - wr w) : ℕ) := by
    exact_mod_cast Nat.sub_pos_of_lt h2
  exact mul_pos c1 c2

theorem windowSum_const (g : ℕ → ℕ → ℚ) (v : ℚ) (H W w i j : ℕ)
    (hi : i < H) (hj : j < W) (hconst : ∀ a b, a < H → b < W → g a b = v) :
    windowSum g H W w i j = v * w2count H W w i j := by
  rw [windowSum_eq_sum g H W w i j hi hj, w2count,
    windowSum_eq_sum _ H W w i j hi hj, Finset.mul_sum]
  refine Finset.sum_congr rfl fun a ha => ?_
  rw [Finset.mul_sum]
  refine Finset.sum_congr rfl fun b hb => ?_
  rw [mul_one]
  exact hconst a b
    (lt_of_lt_of_le (Finset.mem_Ico.mp ha).2 (min_le_right _ H))
    (lt_of_lt_of_le (Finset.mem_Ico.mp hb).2 (min_le_right _ W))

/-- C9: on a constant image of value `c`, for every odd window size from 3 up
to the smaller image dimension, the local mean surface equals `c` at every
pixel (borders included, where the window is cropped and the normaliser is the
count of contributing pixels) and the local standard deviation surface is zero
everywhere. -/
theorem C9_constant_image (g : ℕ → ℕ → ℚ) (c : ℚ) (H W w i j : ℕ)
    (hodd : Odd w) (h3 : 3 ≤ w) (hwH : w ≤ H) (hwW : w ≤ W)
    (hi : i < H) (hj : j < W)
    (hconst : ∀ a b, a < H → b < W → g a b = c) :
    mstd_m g H W w i j = c ∧ mstd_s2 g H W w i j = 0 ∧
      Real.sqrt ((mstd_s2 g H W w i j : ℚ) : ℝ) = 0 := by
  have hpos := w2count_pos H W w i j hi hj
  have hm : mstd_m g H W w i j = c := by
    rw [mstd_m, windowSum_const g c H W w i j hi hj hconst, mul_div_assoc,
      div_self (ne_of_gt hpos), mul_one]
  have hg2 : sum_g2 g H W w i j = c ^ 2 * w2count H W w i j := by
    rw [sum_g2]
    exact windowSum_const _ (c ^ 2) H W w i j hi hj fun a b ha hb => by
      rw [hconst a b ha hb]
  have hs2 : mstd_s2 g H W w i j = 0 := by
    rw [mstd_s2, hg2, hm, show c ^ 2 * w2count H W w i j -
      w2count H W w i j * c ^ 2 = 0 by ring, zero_div]
  exact ⟨hm, hs2, by rw [hs2]; simp⟩

/-- Witness for C9: the constant 7-image of size 3 × 3, window 3, at the
border pixel (0, 0). -/
theorem C9_constant_image_witness :
    (Odd 3 ∧ 3 ≤ 3 ∧ (3 : ℕ) ≤ 3 ∧ (0 : ℕ) < 3 ∧
      ∀ a b : ℕ, a < 3 → b < 3 → (fun _ _ => (7 : ℚ)) a b = 7) ∧
    (mstd_m (fun _ _ => (7 : ℚ)) 3 3 3 0 0 = 7 ∧
      mstd_s2 (fun _ _ => (7 : ℚ)) 3 3 3 0 0 = 0 ∧
      Real.sqrt ((mstd_s2 (fun _ _ => (7 : ℚ)) 3 3 3 0 0 : ℚ) : ℝ) = 0) :=
  ⟨⟨by decide, by decide, by decide, by decide, fun a b _ _ => rfl⟩,
    C9_constant_image (fun _ _ => (7 : ℚ)) 7 3 3 3 0 0 (by decide) (by decide)
      (by decide) (by decide) (by decide) (by decide) fun a b _ _ => rfl⟩

/-- C2: the claim states that `_mean_std` clamps the local variance to be
non-negative before the square root; the source (lines 310-313) applies no
clamp.  In the exact-arithmetic embedding the unclamped variance is provably
non-negative for every image and every pixel (Cauchy-Schwarz), so the clamp
`max 0 _` demanded by the specification is the identity there and the stddev
surface is well defined; only floating-point cancellation can produce the
negative operand the clamp is meant to guard, and then the unclamped source
yields NaN. -/
theorem C2_variance_nonneg (g : ℕ → ℕ → ℚ) (H W w i j : ℕ)
    (hi : i < H) (hj : j < W) :
    0 ≤ mstd_s2 g H W w i j ∧
      max 0 (mstd_s2 g H W w i j) = mstd_s2 g H W w i j ∧
      0 ≤ Real.sqrt ((mstd_s2 g H W w i j : ℚ) : ℝ) := by
  have hpos := w2count_pos H W w i j hi hj
  have hnn : 0 ≤ mstd_s2 g H W w i j := by
    set s := Finset.Ico (i - wr w) (min (i + wr w + 1) H) ×ˢ
      Finset.Ico (j - wr w) (min (j + wr w + 1) W) with hs
    have hcard : w2count H W w i j = (s.card : ℚ) := by
      rw [w2count, windowSum_eq_sum _ H W w i j hi hj, ← Finset.sum_product']
      simp [hs]
    have hS : windowSum g H W w i j = ∑ c ∈ s, g c.1 c.2 := by
      rw [windowSum_eq_sum g H W w i j hi hj, ← Finset.sum_product']
    have hQ : sum_g2 g H W w i j = ∑ c ∈ s, g c.1 c.2 ^ 2 := by
      rw [sum_g2, windowSum_eq_sum _ H W w i j hi hj, ← Finset.sum_product']
    have hcs : (∑ c ∈ s, g c.1 c.2) ^ 2 ≤ s.card * ∑ c ∈ s, g c.1 c.2 ^ 2 :=
      sq_sum_le_card_mul_sum_sq
    rw [mstd_s2, mstd_m, hS, hQ, hcard]
    have hn : (0 : ℚ) < (s.card : ℚ) := by rw [← hcard]; exact hpos
    apply div_nonneg _ hn.le
    rw [show (s.card : ℚ) * ((∑ c ∈ s, g c.1 c.2) / (s.card : ℚ)) ^ 2 =
      (∑ c ∈ s, g c.1 c.2) ^ 2 / (s.card : ℚ) by field_simp; ring, sub_nonneg,
      div_le_iff₀ hn]
    linarith [hcs]
  exact ⟨hnn, max_eq_right hnn, Real.sqrt_nonneg _⟩

/-- Witness for C2 at a non-constant 2 × 2 image, window 3, pixel (0, 1). -/
theorem C2_variance_nonneg_witness :
    ((0 : ℕ) < 2 ∧ (1 : ℕ) < 2) ∧
    (0 ≤ mstd_s2 (fun a b => (a + 2 * b : ℚ)) 2 2 3 0 1 ∧
      max 0 (mstd_s2 (fun a b => (a + 2 * b : ℚ)) 2 2 3 0 1) =
        mstd_s2 (fun a b => (a + 2 * b : ℚ)) 2 2 3 0 1 ∧
      0 ≤ Real.sqrt ((mstd_s2 (fun a b => (a + 2 * b : ℚ)) 2 2 3 0 1 : ℚ) : ℝ)) :=
  ⟨⟨by decide, by decide⟩,
    C2_variance_nonneg (fun a b => (a + 2 * b : ℚ)) 2 2 3 0 1 (by decide)
      (by decide)⟩

/-! ### Local threshold engines (source lines 317-470) -/

/-- Maximum of a list seeded on its first element (numpy `.max()` of a
non-empty array); the default `d` is only returned on the empty array, where
numpy raises. -/
def maxD {α : Type} [Max α] (d : α) : List α → α
  | [] => d
  | x :: xs => xs.foldl max x

/-- Minimum of a list seeded on its first element (numpy `.min()`). -/
def minD {α : Type} [Min α] (d : α) : List α → α
  | [] => d
  | x :: xs => xs.foldl min x

/-- Row-major list of the pixel coordinates of an `H × W` image. -/
def pixList (H W : ℕ) : List (ℕ × ℕ) :=
  (List.range H).flatMap fun i => (List.range W).map fun j => (i, j)

theorem mem_pixList (H W a b : ℕ) : (a, b) ∈ pixList H W ↔ a < H ∧ b < W := by
  simp [pixList]

theorem pixList_ne_nil (H W : ℕ) (hH : 0 < H) (hW : 0 < W) :
    pixList H W ≠ [] :=
  List.ne_nil_of_mem ((mem_pixList H W 0 0).mpr ⟨hH, hW⟩)

theorem foldl_max_mem {α : Type} [LinearOrder α] (x : α) (l : List α) :
    l.foldl max x ∈ x :: l := by
  induction l generalizing x with
  | nil => simp
  | cons y ys ih =>
    have := ih (max x y)
    rcases List.mem_cons.mp this with h | h
    · rcases max_choice x y with hc | hc <;> rw [List.foldl_cons, h, hc] <;> simp
    · rw [List.foldl_cons]
      right
      right
      exact h

theorem le_foldl_max {α : Type} [LinearOrder α] (x : α) (l : List α) :
    x ≤ l.foldl max x ∧ ∀ y ∈ l, y ≤ l.foldl max x := by
  induction l generalizing x with
  | nil => simp
  | cons y ys ih =>
    obtain ⟨h1, h2⟩ := ih (max x y)
    refine ⟨le_trans (le_max_left x y) h1, fun z hz => ?_⟩
    rcases List.mem_cons.mp hz with rfl | hmem
    · exact le_trans (le_max_right x z) h1
    · exact h2 z hmem

theorem foldl_min_mem {α : Type} [LinearOrder α] (x : α) (l : List α) :
    l.foldl min x ∈ x :: l := by
  induction l generalizing x with
  | nil => simp
  | cons y ys ih =>
    have := ih (min x y)
    rcases List.mem_cons.mp this with h | h
    · rcases min_choice x y with hc | hc <;> rw [List.foldl_cons, h, hc] <;> simp
    · rw [List.foldl_cons]
      right
      right
      exact h

theorem foldl_min_le {α : Type} [LinearOrder α] (x : α) (l : List α) :
    l.foldl min x ≤ x ∧ ∀ y ∈ l, l.foldl min x ≤ y := by
  induction l generalizing x with
  | nil => simp
  | cons y ys ih =>
    obtain ⟨h1, h2⟩ := ih (min x y)
    refine ⟨le_trans h1 (min_le_left x y), fun z hz => ?_⟩
    rcases List.mem_cons.mp hz with rfl | hmem
    · exact le_trans h1 (min_le_right x z)
    · exact h2 z hmem

theorem maxD_isGreatest {α : Type} [LinearOrder α] (d : α) (l : List α)
    (hne : l ≠ []) : maxD d l ∈ l ∧ ∀ y ∈ l, y ≤ maxD d l := by
  cases l with
  | nil => exact absurd rfl hne
  | cons x xs =>
    obtain ⟨h1, h2⟩ := le_foldl_max x xs
    refine ⟨foldl_max_mem x xs, fun y hy => ?_⟩
    rcases List.mem_cons.mp hy with rfl | hmem
    · exact h1
    · exact h2 y hmem

theorem minD_isLeast {α : Type} [LinearOrder α] (d : α) (l : List α)
    (hne : l ≠ []) : minD d l ∈ l ∧ ∀ y ∈ l, minD d l ≤ y := by
  cases l with
  | nil => exact absurd rfl hne
  | cons x xs =>
    obtain ⟨h1, h2⟩ := foldl_min_le x xs
    refine ⟨foldl_min_mem x xs, fun y hy => ?_⟩
    rcases List.mem_cons.mp hy with rfl | hmem
    · exact h1
    · exact h2 y hmem

/-- Model of `threshold_niblack` (lines 317-362): `m, s = _mean_std(image, w)`,
`t = m - k * s`, classification `image > (t - offset)`, stated per pixel; the
source's `s = np.sqrt(s2)` is `Real.sqrt` here. -/
def threshold_niblack (g : ℕ → ℕ → ℚ) (H W w : ℕ) (k offset : ℚ)
    (i j : ℕ) : Prop :=
  (g i j : ℝ) >
    ((mstd_m g H W w i j : ℚ) : ℝ) -
      (k : ℝ) * Real.sqrt ((mstd_s2 g H W w i j : ℚ) : ℝ) - (offset : ℝ)

/-- Model of `threshold_sauvola` (lines 365-470), stated per pixel.  The three
documented methods follow the source formulas (lines 456-466); the final
`else` models the `raise ValueError` (lines 467-468) — no classification is
produced there.  In the wolf branch `R = s.max()` (line 459) and
`M = image.min()` (line 460) are the global scalars of the source; in the
phansalkar branch the image and `r` are rescaled by 255 and the local
statistics are recomputed on the rescaled image (lines 463-466), and the final
comparison (line 470) uses the rescaled image. -/
def threshold_sauvola (g : ℕ → ℕ → ℚ) (H W : ℕ) (method : String) (w : ℕ)
    (k r offset p q : ℚ) (i j : ℕ) : Prop :=
  if method = "sauvola" then
    (g i j : ℝ) > ((mstd_m g H W w i j : ℚ) : ℝ) *
      (1 + (k : ℝ) * (Real.sqrt ((mstd_s2 g H W w i j : ℚ) : ℝ) / (r : ℝ) - 1))
      - (offset : ℝ)
  else if method = "wolf" then
    let R : ℝ := maxD 0 ((pixList H W).map fun c =>
      Real.sqrt ((mstd_s2 g H W w c.1 c.2 : ℚ) : ℝ))
    let M : ℚ := minD 0 ((pixList H W).map fun c => g c.1 c.2)
    (g i j : ℝ) > (1 - (k : ℝ)) * ((mstd_m g H W w i j : ℚ) : ℝ) +
      (k : ℝ) * ((M : ℚ) : ℝ) +
      (k : ℝ) * (Real.sqrt ((mstd_s2 g H W w i j : ℚ) : ℝ) / R) *
        (((mstd_m g H W w i j : ℚ) : ℝ) - ((M : ℚ) : ℝ)) - (offset : ℝ)
  else if method = "phansalkar" then
    let gn : ℕ → ℕ → ℚ := fun a b => g a b / 255
    let rn : ℚ := r / 255
    (gn i j : ℝ) > ((mstd_m gn H W w i j : ℚ) : ℝ) *
      (1 + (p : ℝ) * Real.exp (-(q : ℝ) * ((mstd_m gn H W w i j : ℚ) : ℝ)) +
        (k : ℝ) *
          (Real.sqrt ((mstd_s2 gn H W w i j : ℚ) : ℝ) / ((rn : ℚ) : ℝ) - 1))
      - (offset : ℝ)
  else False

/-- Model of `threshold_adaptive` (lines 14-94), stated per pixel.  The four
windowed filters are external collaborators (`scipy.ndimage`); they enter as
the parameter `filt`.  An unknown method name leaves the
`np.zeros`-initialised threshold surface untouched (the if/elif chain of lines
72-92 has no else branch) and line 94 still returns
`image > (thresh_image - offset)`. -/
def threshold_adaptive (g : ℕ → ℕ → ℚ) (method : String)
    (filt : String → (ℕ → ℕ → ℚ) → (ℕ → ℕ → ℚ)) (offset : ℚ)
    (i j : ℕ) : Prop :=
  let thresh : ℕ → ℕ → ℚ :=
    if method = "generic" ∨ method = "gaussian" ∨ method = "mean" ∨
        method = "median" then filt method g
    else fun _ _ => 0
  g i j > thresh i j - offset

/-! ### Claim C3: direction of the offset monotonicity -/

theorem niblack_zero_image (offset : ℚ) (h : 0 < offset) :
    threshold_niblack (fun _ _ => 0) 1 1 3 0 offset 0 0 := by
  have hm : mstd_m (fun _ _ => 0) 1 1 3 0 0 = 0 := by with_unfolding_all decide
  have hs : mstd_s2 (fun _ _ => 0) 1 1 3 0 0 = 0 := by with_unfolding_all decide
  rw [threshold_niblack, hm, hs]
  simp only [Rat.cast_zero, Real.sqrt_zero, mul_zero, zero_mul, sub_zero,
    zero_sub, gt_iff_lt, neg_lt_zero]
  exact_mod_cast h

theorem not_niblack_zero_image :
    ¬ threshold_niblack (fun _ _ => 0) 1 1 3 0 0 0 0 := by
  have hm : mstd_m (fun _ _ => 0) 1 1 3 0 0 = 0 := by with_unfolding_all decide
  have hs : mstd_s2 (fun _ _ => 0) 1 1 3 0 0 = 0 := by with_unfolding_all decide
  rw [threshold_niblack, hm, hs]
  simp

theorem sauvola_zero_image (offset : ℚ) (h : 0 < offset) :
    threshold_sauvola (fun _ _ => 0) 1 1 "sauvola" 3 0 128 offset 2 10 0 0 := by
  have hm : mstd_m (fun _ _ => 0) 1 1 3 0 0 = 0 := by with_unfolding_all decide
  rw [threshold_sauvola, if_pos rfl, hm]
  simp only [Rat.cast_zero, zero_mul, zero_sub, gt_iff_lt, neg_lt_zero]
  exact_mod_cast h

/-- C3 counterexample: on the 1 × 1 zero image with `w = 3`, `k = 0`, the
pixel is foreground at offset `o2 = 1` but background at offset `o1 = 0`, so a
pixel foreground at the larger offset need not be foreground at the smaller
one: increasing the offset turned a background pixel into foreground, refuting
the claimed direction. -/
theorem C3_offset_counterexample :
    (0 : ℚ) ≤ 1 ∧ threshold_niblack (fun _ _ => 0) 1 1 3 0 1 0 0 ∧
      ¬ threshold_niblack (fun _ _ => 0) 1 1 3 0 0 0 0 :=
  ⟨by norm_num, niblack_zero_image 1 one_pos, not_niblack_zero_image⟩

/-- C3 amended: the classification of `threshold_niblack` and of every
`threshold_sauvola` method is non-DEcreasing in `offset`: for `o1 ≤ o2` every
pixel foreground at `o1` is still foreground at `o2` — increasing the offset
can only turn background pixels into foreground (the comparison is
`image > threshold - offset`), never the reverse. -/
theorem C3_offset_monotone :
    (∀ (g : ℕ → ℕ → ℚ) (H W w : ℕ) (k o1 o2 : ℚ) (i j : ℕ), o1 ≤ o2 →
      threshold_niblack g H W w k o1 i j → threshold_niblack g H W w k o2 i j) ∧
    (∀ (g : ℕ → ℕ → ℚ) (H W : ℕ) (method : String) (w : ℕ)
      (k r p q o1 o2 : ℚ) (i j : ℕ), o1 ≤ o2 →
      threshold_sauvola g H W method w k r o1 p q i j →
      threshold_sauvola g H W method w k r o2 p q i j) := by
  constructor
  · intro g H W w k o1 o2 i j ho h
    rw [threshold_niblack] at h ⊢
    have hc : (o1 : ℝ) ≤ (o2 : ℝ) := by exact_mod_cast ho
    linarith
  · intro g H W method w k r p q o1 o2 i j ho h
    have hc : (o1 : ℝ) ≤ (o2 : ℝ) := by exact_mod_cast ho
    rw [threshold_sauvola] at h ⊢
    split_ifs at h ⊢ with h1 h2 h3
    · linarith
    · dsimp only at h ⊢
      linarith
    · dsimp only at h ⊢
      linarith

/-- Witness for the amended C3 on the 1 × 1 zero image, offsets 1 ≤ 2. -/
theorem C3_offset_monotone_witness :
    ((1 : ℚ) ≤ 2 ∧ threshold_niblack (fun _ _ => 0) 1 1 3 0 1 0 0 ∧
      threshold_sauvola (fun _ _ => 0) 1 1 "sauvola" 3 0 128 1 2 10 0 0) ∧
    threshold_niblack (fun _ _ => 0) 1 1 3 0 2 0 0 ∧
    threshold_sauvola (fun _ _ => 0) 1 1 "sauvola" 3 0 128 2 2 10 0 0 :=
  ⟨⟨by norm_num, niblack_zero_image 1 one_pos, sauvola_zero_image 1 one_pos⟩,
    C3_offset_monotone.1 (fun _ _ => 0) 1 1 3 0 1 2 0 0 (by norm_num)
      (niblack_zero_image 1 one_pos),
    C3_offset_monotone.2 (fun _ _ => 0) 1 1 "sauvola" 3 0 128 2 10 1 2 0 0
      (by norm_num) (sauvola_zero_image 1 one_pos)⟩

/-! ### Claim C8: the wolf method and its global scalars -/

/-- Specification-side wolf classification of claim C8, written from the
claim's words: there are global scalars `R` — the maximum of the stddev
surface over the whole surface — and `M` — the minimum of the image over the
whole image — such that the per-pixel threshold is
`(1-k)*mean + k*M + k*(stddev/R)*(mean - M)` and the classification is
`image > (threshold - offset)`.  `R` and `M` are characterised
order-theoretically (upper/lower bound attained on the surface/image). -/
def wolfSpec (g : ℕ → ℕ → ℚ) (H W w : ℕ) (k offset : ℚ) (i j : ℕ) : Prop :=
  ∃ R : ℝ, ∃ M : ℚ,
    (∀ a, a < H → ∀ b, b < W →
      Real.sqrt ((mstd_s2 g H W w a b : ℚ) : ℝ) ≤ R) ∧
    (∃ a, a < H ∧ ∃ b, b < W ∧
      Real.sqrt ((mstd_s2 g H W w a b : ℚ) : ℝ) = R) ∧
    (∀ a, a < H → ∀ b, b < W → M ≤ g a b) ∧
    (∃ a, a < H ∧ ∃ b, b < W ∧ g a b = M) ∧
    ((g i j : ℝ) > (1 - (k : ℝ)) * ((mstd_m g H W w i j : ℚ) : ℝ) +
      (k : ℝ) * ((M : ℚ) : ℝ) +
      (k : ℝ) * (Real.sqrt ((mstd_s2 g H W w i j : ℚ) : ℝ) / R) *
        (((mstd_m g H W w i j : ℚ) : ℝ) - ((M : ℚ) : ℝ)) - (offset : ℝ))

theorem pixMax_spec {α : Type} [LinearOrder α] (d : α) (H W : ℕ)
    (hH : 0 < H) (hW : 0 < W) (F : ℕ → ℕ → α) :
    (∀ a, a < H → ∀ b, b < W →
      F a b ≤ maxD d ((pixList H W).map fun c => F c.1 c.2)) ∧
    ∃ a, a < H ∧ ∃ b, b < W ∧
      F a b = maxD d ((pixList H W).map fun c => F c.1 c.2) := by
  have hne : (pixList H W).map (fun c => F c.1 c.2) ≠ [] := by
    simpa using pixList_ne_nil H W hH hW
  obtain ⟨hmem, hub⟩ := maxD_isGreatest d _ hne
  constructor
  · intro a ha b hb
    exact hub _ (List.mem_map.mpr ⟨(a, b), (mem_pixList H W a b).mpr ⟨ha, hb⟩, rfl⟩)
  · obtain ⟨⟨a0, b0⟩, hc, hceq⟩ := List.mem_map.mp hmem
    obtain ⟨ha0, hb0⟩ := (mem_pixList H W a0 b0).mp hc
    exact ⟨a0, ha0, b0, hb0, hceq⟩

theorem pixMin_spec {α : Type} [LinearOrder α] (d : α) (H W : ℕ)
    (hH : 0 < H) (hW : 0 < W) (F : ℕ → ℕ → α) :
    (∀ a, a < H → ∀ b, b < W →
      minD d ((pixList H W).map fun c => F c.1 c.2) ≤ F a b) ∧
    ∃ a, a < H ∧ ∃ b, b < W ∧
      F a b = minD d ((pixList H W).map fun c => F c.1 c.2) := by
  have hne : (pixList H W).map (fun c => F c.1 c.2) ≠ [] := by
    simpa using pixList_ne_nil H W hH hW
  obtain ⟨hmem, hlb⟩ := minD_isLeast d _ hne
  constructor
  · intro a ha b hb
    exact hlb _ (List.mem_map.mpr ⟨(a, b), (mem_pixList H W a b).mpr ⟨ha, hb⟩, rfl⟩)
  · obtain ⟨⟨a0, b0⟩, hc, hceq⟩ := List.mem_map.mp hmem
    obtain ⟨ha0, hb0⟩ := (mem_pixList H W a0 b0).mp hc
    exact ⟨a0, ha0, b0, hb0, hceq⟩

/-- C8: for every image and valid odd window, the wolf method of
`threshold_sauvola` classifies exactly as claim C8 describes: with `R` the
maximum of the stddev surface and `M` the minimum of the image — global
scalars over the whole surface/image — the pixel is foreground iff
`image > ((1-k)*mean + k*M + k*(stddev/R)*(mean - M) - offset)`. -/
theorem C8_wolf_global_scalars (g : ℕ → ℕ → ℚ) (H W w : ℕ)
    (k r offset p q : ℚ) (i j : ℕ) (hodd : Odd w) (hw : 1 < w)
    (hH : 0 < H) (hW : 0 < W) (hi : i < H) (hj : j < W) :
    threshold_sauvola g H W "wolf" w k r offset p q i j ↔
      wolfSpec g H W w k offset i j := by
  obtain ⟨hRub, aR, haR, bR, hbR, hReq⟩ := pixMax_spec (0 : ℝ) H W hH hW
    fun a b => Real.sqrt ((mstd_s2 g H W w a b : ℚ) : ℝ)
  obtain ⟨hMlb, aM, haM, bM, hbM, hMeq⟩ := pixMin_spec (0 : ℚ) H W hH hW
    fun a b => g a b
  rw [threshold_sauvola, if_neg (by decide), if_pos rfl]
  constructor
  · intro h
    exact ⟨_, _, hRub, ⟨aR, haR, bR, hbR, hReq⟩, hMlb,
      ⟨aM, haM, bM, hbM, hMeq⟩, h⟩
  · rintro ⟨R, M, hub, ⟨a, ha, b, hb, heq⟩, hlb, ⟨a2, ha2, b2, hb2, heq2⟩,
      hineq⟩
    have hR : R = maxD 0 ((pixList H W).map fun c =>
        Real.sqrt ((mstd_s2 g H W w c.1 c.2 : ℚ) : ℝ)) :=
      le_antisymm (heq ▸ hRub a ha b hb) (hReq ▸ hub aR haR bR hbR)
    have hM : M = minD 0 ((pixList H W).map fun c => g c.1 c.2) :=
      le_antisymm (hMeq ▸ hlb aM haM bM hbM) (heq2 ▸ hMlb a2 ha2 b2 hb2)
    rw [hR, hM] at hineq
    exact hineq

/-- Witness for C8: constant 5-image of size 1 × 1, window 3. -/
theorem C8_wolf_global_scalars_witness :
    (Odd 3 ∧ 1 < 3 ∧ (0 : ℕ) < 1) ∧
    (threshold_sauvola (fun _ _ => 5) 1 1 "wolf" 3 0 128 1 2 10 0 0 ↔
      wolfSpec (fun _ _ => 5) 1 1 3 0 1 0 0) :=
  ⟨⟨by decide, by decide, by decide⟩,
    C8_wolf_global_scalars (fun _ _ => 5) 1 1 3 0 128 1 2 10 0 0 (by decide)
      (by decide) (by decide) (by decide) (by decide) (by decide)⟩

/-! ### Control traces for the error-handling claims (C4, C5)

The remaining two claims are about WHICH error is raised and WHAT runs before
it.  The value-level pipelines above cannot express evaluation order, so the
engines' control skeletons are modelled as a list of observable effects in
program order paired with the `Except` outcome. -/

/-- Observable side effects of the local engines. -/
inductive Ev
  | allocArray
  | integralImage
  | localStats
  | filterCall
deriving DecidableEq

/-- The two error families of the module. -/
inductive Err
  | windowSize
  | unknownMethod
deriving DecidableEq

/-- Control skeleton of `_mean_std` (lines 290-314): the window-size guard
(lines 290-292) runs before the integral image is built (line 293). -/
def meanStdRun (w : ℕ) : List Ev × Except Err Unit :=
  if w = 1 ∨ w % 2 = 0 then ([], .error .windowSize)
  else ([.integralImage, .localStats], .ok ())

/-- Control skeleton of `threshold_niblack` (lines 358-362): the `_mean_std`
call is the first statement. -/
def niblackRun (w : ℕ) : List Ev × Except Err Unit := meanStdRun w

/-- Control skeleton of `threshold_sauvola` (lines 452-470):
`t = np.zeros_like(image)` (line 454) allocates first, `_mean_std` (line 455)
runs second, and the method dispatch with its unknown-method raise (lines
456-468) runs last; the phansalkar branch recomputes the local statistics on
the rescaled image (line 464). -/
def sauvolaRun (method : String) (w : ℕ) : List Ev × Except Err Unit :=
  let m := meanStdRun w
  match m.2 with
  | .error e => (Ev.allocArray :: m.1, .error e)
  | .ok _ =>
    if method = "sauvola" ∨ method = "wolf" then (Ev.allocArray :: m.1, .ok ())
    else if method = "phansalkar" then
      (Ev.allocArray :: (m.1 ++ (meanStdRun w).1), .ok ())
    else (Ev.allocArray :: m.1, .error .unknownMethod)

/-- Control skeleton of `threshold_adaptive` (lines 71-94):
`thresh_image = np.zeros(...)` (line 71) allocates first, the four documented
methods call an external filter (the scipy primitives accept even block
sizes), any other method name falls through the if/elif chain with no effect,
and no error is ever raised — the block size is never validated. -/
def adaptiveRun (method : String) (block_size : ℕ) : List Ev × Except Err Unit :=
  (Ev.allocArray ::
    (if method = "generic" ∨ method = "gaussian" ∨ method = "mean" ∨
        method = "median" then [Ev.filterCall] else []),
    .ok ())

/-- C4 counterexample: with the even window 4, `threshold_adaptive` raises no
error at all (the filter runs), and `threshold_sauvola` raises the
window-size error only after allocating its output array — so the claim that
every local engine raises before any allocation is false on both counts. -/
theorem C4_counterexample :
    (adaptiveRun "gaussian" 4).2 = .ok () ∧
    adaptiveRun "gaussian" 4 = ([Ev.allocArray, Ev.filterCall], .ok ()) ∧
    sauvolaRun "sauvola" 4 = ([Ev.allocArray], .error .windowSize) ∧
    niblackRun 4 = ([], .error .windowSize) :=
  ⟨rfl, rfl, rfl, rfl⟩

/-- C4 amended: for window size 1 or any even window size,
`threshold_niblack` raises the invalid-parameter error before any effect and
`threshold_sauvola` raises it after allocating exactly one output-shaped
array (and before any integral image is built), while `threshold_adaptive`
performs no window-size validation at all and completes normally for every
method and block size. -/
theorem C4_window_validation (w : ℕ) (hw : w = 1 ∨ w % 2 = 0) :
    niblackRun w = ([], .error .windowSize) ∧
    (∀ method, sauvolaRun method w = ([Ev.allocArray], .error .windowSize)) ∧
    (∀ method block_size, (adaptiveRun method block_size).2 = .ok ()) := by
  refine ⟨?_, fun method => ?_, fun method block_size => ?_⟩
  · rw [niblackRun, meanStdRun, if_pos hw]
  · rw [sauvolaRun, meanStdRun, if_pos hw]
  · rw [adaptiveRun]

/-- Witness for the amended C4 at `w = 4`. -/
theorem C4_window_validation_witness :
    ((4 : ℕ) = 1 ∨ (4 : ℕ) % 2 = 0) ∧
    (niblackRun 4 = ([], .error .windowSize) ∧
      (∀ method, sauvolaRun method 4 = ([Ev.allocArray], .error .windowSize)) ∧
      (∀ method block_size, (adaptiveRun method block_size).2 = .ok ())) :=
  ⟨by decide, C4_window_validation 4 (by decide)⟩

/-- C5 counterexample: for the undocumented method name "foo" with a valid
window, `threshold_sauvola` raises the unknown-method error only AFTER
allocating its output array and computing the local statistics, and
`threshold_adaptive` raises no error at all — so the claim that both fail
fast with no array allocated and no statistics computed is false on both
counts. -/
theorem C5_counterexample :
    sauvolaRun "foo" 3 =
      ([Ev.allocArray, Ev.integralImage, Ev.localStats],
        .error .unknownMethod) ∧
    (adaptiveRun "foo" 3).2 = .ok () :=
  ⟨rfl, rfl⟩

/-- C5 amended: for every method name outside its documented set,
`threshold_sauvola` (with a valid window) raises the unknown-method error,
but only after allocating the output array and computing the local
statistics; `threshold_adaptive` raises nothing — it silently uses the
zero-initialised threshold surface, classifying each pixel as
`image > 0 - offset`. -/
theorem C5_unknown_method (method : String)
    (hs : ¬ (method = "sauvola" ∨ method = "wolf" ∨ method = "phansalkar"))
    (ha : ¬ (method = "generic" ∨ method = "gaussian" ∨ method = "mean" ∨
      method = "median"))
    (w : ℕ) (hw : ¬ (w = 1 ∨ w % 2 = 0)) :
    sauvolaRun method w =
      ([Ev.allocArray, Ev.integralImage, Ev.localStats],
        .error .unknownMethod) ∧
    (∀ block_size, adaptiveRun method block_size = ([Ev.allocArray], .ok ())) ∧
    (∀ g filt offset i j, threshold_adaptive g method filt offset i j ↔
      g i j > 0 - offset) := by
  have h1 : ¬ (method = "sauvola" ∨ method = "wolf") := fun h =>
    hs (h.elim Or.inl fun h' => Or.inr (Or.inl h'))
  have h2 : ¬ method = "phansalkar" := fun h => hs (Or.inr (Or.inr h))
  refine ⟨?_, fun block_size => ?_, fun g filt offset i j => ?_⟩
  · rw [sauvolaRun, meanStdRun, if_neg hw]
    simp only [if_neg h1, if_neg h2]
  · rw [adaptiveRun, if_neg ha]
  · rw [threshold_adaptive, if_neg ha]

/-- Witness for the amended C5 at method "foo", window 3. -/
theorem C5_unknown_method_witness :
    ((¬ (("foo" : String) = "sauvola" ∨ ("foo" : String) = "wolf" ∨
        ("foo" : String) = "phansalkar")) ∧
      (¬ (("foo" : String) = "generic" ∨ ("foo" : String) = "gaussian" ∨
        ("foo" : String) = "mean" ∨ ("foo" : String) = "median")) ∧
      ¬ ((3 : ℕ) = 1 ∨ (3 : ℕ) % 2 = 0)) ∧
    (sauvolaRun "foo" 3 =
        ([Ev.allocArray, Ev.integralImage, Ev.localStats],
          .error .unknownMethod) ∧
      (∀ block_size, adaptiveRun "foo" block_size =
        ([Ev.allocArray], .ok ())) ∧
      (∀ g filt offset i j, threshold_adaptive g "foo" filt offset i j ↔
        g i j > 0 - offset)) :=
  ⟨⟨by decide, by decide, by decide⟩,
    C5_unknown_method "foo" (by decide) (by decide) 3 (by decide)⟩

end Thresholding
